import Mathlib

/-!
Verification development for the zerofs capability-secured content-addressable
file system.  The definitions below are a shallow embedding of the Rust source
(`src/zerofs/src/filesystem/path.rs`, `filesystem/dir/dir.rs`,
`filesystem/dir/op_open_at.rs`, `filesystem/file/file.rs`,
`filesystem/metadata.rs`, `filesystem/flag.rs`, `filesystem/handle.rs`).
Machine integers (`usize`) are modelled as `Nat`; a Rust panic (integer
underflow or an out-of-bounds slice) is modelled as the `none` value of an
`Option`-returning function; fallible operations return `Except FsError`.
-/

namespace ZeroFS

/-- One component of a path: `.`, `..`, or a named entry
(`PathSegment` in `path.rs`). -/
inductive PathSegment where
  | currentDir
  | parentDir
  | named (s : String)
deriving DecidableEq, Repr

/-- An ordered sequence of path segments (`Path` in `path.rs`). -/
structure Path where
  segments : List PathSegment
deriving DecidableEq, Repr

/-- Bitset of per-handle rights (`DescriptorFlags` in `flag.rs`), modelled as
one Bool per recognized bit: READ=1, WRITE=2, MUTATE_DIR=4. -/
structure DescriptorFlags where
  read : Bool
  write : Bool
  mutateDir : Bool
deriving DecidableEq, Repr

/-- Bitset controlling `open_at` (`OpenFlags` in `flag.rs`), one Bool per
recognized bit: CREATE=1, DIRECTORY=2, EXCLUSIVE=4, TRUNCATE=8. -/
structure OpenFlags where
  create : Bool
  directory : Bool
  exclusive : Bool
  truncate : Bool
deriving DecidableEq, Repr

/-- The error taxonomy (`FsError` in `error.rs` together with
`PermissionError`), restricted to the kinds reachable from the embedded
operations.  `ipldStore` stands for any error propagated from the block
store collaborator. -/
inductive FsError where
  | invalidPathSegment (s : String)
  | leadingCurrentDir
  | outOfBoundsParentDir
  | notAFile (p : Option Path)
  | notADirectory (p : Option Path)
  | notAFileOrDir (p : Option Path)
  | notFound (p : Path)
  | needAtLeastReadFlag (p : Path) (df : DescriptorFlags)
  | notAllowedToReadDir
  | childPermissionEscalation (p : Path) (selfFlags df : DescriptorFlags) (of : OpenFlags)
  | openFlagsExclusiveButEntityExists (p : Path) (of : OpenFlags)
  | openFlagsDirectoryButEntityNotADir (p : Path) (of : OpenFlags)
  | invalidOpenFlagsCombination (p : Path) (of : OpenFlags)
  | symLinkNotSupportedYet (p : Path)
  | ipldStore
deriving DecidableEq, Repr

/-- The regex `^[a-zA-Z0-9]+$` guarding named segments
(`RE_VALID_PATH_SEGMENT` in `path.rs`):  nonempty, ASCII alphanumeric. -/
def reValidPathSegment (s : String) : Bool :=
  !s.isEmpty && s.toList.all Char.isAlphanum

/-- `PathSegment::validate`: `.` and `..` are accepted, anything else must
match the regex. -/
def PathSegment.validate (s : String) : Except FsError Unit :=
  if s = "." ∨ s = ".." then .ok ()
  else if reValidPathSegment s then .ok ()
  else .error (.invalidPathSegment s)

/-- `TryFrom<String> for PathSegment`: validate, then classify. -/
def PathSegment.tryFromString (s : String) : Except FsError PathSegment := do
  _ ← PathSegment.validate s
  if s = "." then pure .currentDir
  else if s = ".." then pure .parentDir
  else pure (.named s)

/-- Splitting a character list at every occurrence of a separator, keeping
empty pieces (the semantics of Rust's `str::split(char)`). -/
def splitCharsGo (sep : Char) : List Char → List Char → List String
  | [], acc => [String.mk acc.reverse]
  | c :: rest, acc =>
    if c = sep then String.mk acc.reverse :: splitCharsGo sep rest []
    else splitCharsGo sep rest (c :: acc)

/-- Rust `str::split` with a character separator. -/
def splitChars (sep : Char) (s : String) : List String :=
  splitCharsGo sep s.toList []

/-- `TryFrom<&str> for Path`: split on `/`, drop empty pieces, convert each
piece to a segment. -/
def Path.tryFromString (s : String) : Except FsError Path := do
  let pieces := (splitChars '/' s).filter (fun piece => !piece.isEmpty)
  let segs ← pieces.mapM PathSegment.tryFromString
  pure ⟨segs⟩

/-- Rust `str::to_lowercase`, restricted to the ASCII fold: named segments
are validated ASCII-alphanumeric, on which the two coincide. -/
def strToLower (s : String) : String :=
  String.mk (s.toList.map Char.toLower)

/-- `PathSegment::canonicalize`: lowercase the named form, keep `.`/`..`. -/
def PathSegment.canon : PathSegment → PathSegment
  | .named s => .named (strToLower s)
  | s => s

/-- `PathSegment::as_str`. -/
def PathSegment.asStr : PathSegment → String
  | .currentDir => "."
  | .parentDir => ".."
  | .named s => s

/-- `PartialEq for PathSegment`: compare the canonicalized forms
(case-insensitive on named segments). -/
def segBeq (a b : PathSegment) : Bool :=
  match a.canon, b.canon with
  | .currentDir, .currentDir => true
  | .parentDir, .parentDir => true
  | .named x, .named y => x == y
  | _, _ => false

/-- Derived `PartialEq` on `Vec<PathSegment>`: equal lengths and pairwise
segment equality. -/
def segListBeq : List PathSegment → List PathSegment → Bool
  | [], [] => true
  | x :: xs, y :: ys => segBeq x y && segListBeq xs ys
  | _, _ => false

/-- Derived `PartialEq for Path`. -/
def pathBeq (a b : Path) : Bool :=
  segListBeq a.segments b.segments

/-- Comparison of two characters by Unicode scalar value; on the same char
sequences this agrees with Rust's UTF-8 byte comparison of `str`. -/
def charCmp (a b : Char) : Ordering :=
  if a.toNat < b.toNat then .lt
  else if b.toNat < a.toNat then .gt
  else .eq

/-- Lexicographic comparison of character lists. -/
def charListCmp : List Char → List Char → Ordering
  | [], [] => .eq
  | [], _ :: _ => .lt
  | _ :: _, [] => .gt
  | x :: xs, y :: ys =>
    match charCmp x y with
    | .eq => charListCmp xs ys
    | o => o

/-- Rust `str::cmp` (lexicographic). -/
def strCmp (a b : String) : Ordering :=
  charListCmp a.toList b.toList

/-- `Ord for PathSegment`: compare `canonicalize().as_str()`. -/
def segCmp (a b : PathSegment) : Ordering :=
  strCmp a.canon.asStr b.canon.asStr

/-- Derived `Ord` on `Vec<PathSegment>`: lexicographic elementwise, shorter
list first on a common prefix. -/
def segListCmp : List PathSegment → List PathSegment → Ordering
  | [], [] => .eq
  | [], _ :: _ => .lt
  | _ :: _, [] => .gt
  | x :: xs, y :: ys =>
    match segCmp x y with
    | .eq => segListCmp xs ys
    | o => o

/-- Derived `Ord for Path`. -/
def pathCmp (a b : Path) : Ordering :=
  segListCmp a.segments b.segments

/-- `Hash for PathSegment` feeds `canonicalize().as_str()` to the hasher;
this is the byte stream the hasher observes for one segment. -/
def segHashInput (s : PathSegment) : String :=
  s.canon.asStr

/-- The stream of data the derived `Hash for Path` feeds to the hasher:
one canonical string per segment.  Two paths with equal streams hash
identically under every hasher. -/
def pathHashInput (p : Path) : List String :=
  p.segments.map segHashInput

/-- The loop body of `Path::canonicalize`: index-aware fold removing `.`
(error when leading) and folding `..` by popping (error when empty). -/
def canonGo : List PathSegment → Nat → List PathSegment → Except FsError (List PathSegment)
  | [], _, acc => .ok acc
  | .currentDir :: rest, i, acc =>
    if i = 0 then .error .leadingCurrentDir
    else canonGo rest (i + 1) acc
  | .parentDir :: rest, i, acc =>
    if acc.isEmpty then .error .outOfBoundsParentDir
    else canonGo rest (i + 1) acc.dropLast
  | .named s :: rest, i, acc => canonGo rest (i + 1) (acc ++ [.named s])

/-- `Path::canonicalize`. -/
def Path.canonicalize (p : Path) : Except FsError Path :=
  (canonGo p.segments 0 []).map Path.mk

/-- Entity kind tag (`EntityType` in `kind.rs`). -/
inductive EntityType where
  | file
  | dir
  | symlink
deriving DecidableEq, Repr

/-- Entity metadata (`Metadata` in `filesystem/metadata.rs`); timestamps are
opaque clock ticks modelled as `Nat`. -/
structure Metadata where
  entityType : EntityType
  size : Nat
  accessedAt : Nat
  createdAt : Nat
  modifiedAt : Nat
deriving DecidableEq, Repr

/-- `Metadata::new`: size 0, all three timestamps set to the current wall
clock, which the embedding models as tick 0 (no claim depends on clock
values). -/
def Metadata.new (t : EntityType) : Metadata :=
  { entityType := t, size := 0, accessedAt := 0, createdAt := 0, modifiedAt := 0 }

/-- Content identifiers are opaque; equal CIDs mean equal content. -/
abbrev Cid := Nat

/-- A file node (`File` in `file/file.rs`); `content = none` means logically
empty.  The node's store field carries no information in the embedding. -/
structure File where
  metadata : Metadata
  content : Option Cid
deriving DecidableEq, Repr

/-- A symlink node (`Symlink` in `symlink.rs`). -/
structure Symlink where
  metadata : Metadata
  target : Path
deriving DecidableEq, Repr

/-- A directory node (`Dir` in `dir/dir.rs`): metadata plus the entries map.
The Rust `HashMap<PathSegment, EntityCidLink>` (keys compared with the
case-insensitive `PartialEq`, links compared by CID) is modelled as an
association list whose operations reproduce `HashMap` first-match
semantics. -/
structure Dir where
  metadata : Metadata
  entries : List (PathSegment × Cid)
deriving DecidableEq, Repr

/-- A file-system entity (`Entity` in `entity.rs`). -/
inductive Entity where
  | file (f : File)
  | dir (d : Dir)
  | symlink (l : Symlink)
deriving DecidableEq, Repr

/-- `File::new`. -/
def File.new : File :=
  { metadata := Metadata.new .file, content := none }

/-- `Dir::new`. -/
def Dir.new : Dir :=
  { metadata := Metadata.new .dir, entries := [] }

/-- Modelled from the spec: the block store collaborator used by lazy link
resolution (`EntityCidLink::resolve`, spec §4.3/§4.5).  The source's
`Entity::load` body is an unimplemented TODO, so resolution is modelled by
its contract: a CID either resolves to the stored entity or loading fails
with a store error. -/
abbrev Store := List (Cid × Entity)

/-- Lookup of a CID in the modelled block store. -/
def storeGet (st : Store) (cid : Cid) : Option Entity :=
  (st.find? (fun p => p.1 == cid)).map (·.2)

/-- `HashMap::get` over the entries map: first entry whose key equals the
name under the case-insensitive segment equality. -/
def entriesGet : List (PathSegment × Cid) → PathSegment → Option Cid
  | [], _ => none
  | (k, v) :: rest, name => if segBeq k name then some v else entriesGet rest name

/-- `HashMap::insert` over the entries map: replace the value at the first
matching key (keeping the stored key, as `HashMap` does), or append. -/
def entriesInsert : List (PathSegment × Cid) → PathSegment → Cid → List (PathSegment × Cid)
  | [], name, cid => [(name, cid)]
  | (k, v) :: rest, name, cid =>
    if segBeq k name then (k, cid) :: rest
    else (k, v) :: entriesInsert rest name cid

/-- `Dir::get`: the link stored under a name, reduced to its CID (link
equality is identifier-only). -/
def Dir.get (d : Dir) (name : PathSegment) : Option Cid :=
  entriesGet d.entries name

/-- `Dir::put`: insert or replace the link for a (already validated) name. -/
def Dir.put (d : Dir) (name : PathSegment) (cid : Cid) : Dir :=
  { d with entries := entriesInsert d.entries name cid }

/-- `Dir::get_entity`: resolve the named entry through the store; absent
entries resolve to `none`, a failed load surfaces as a store error. -/
def getEntity (st : Store) (d : Dir) (name : PathSegment) : Except FsError (Option Entity) :=
  match entriesGet d.entries name with
  | none => .ok none
  | some cid =>
    match storeGet st cid with
    | some e => .ok (some e)
    | none => .error .ipldStore

/-- Outcome of a path trace (`TraceResult` in `dir/dir.rs`). -/
inductive TraceResult where
  | found (entity : Entity) (name : Option PathSegment) (pathdirs : List (Dir × PathSegment))
  | incomplete (pathdirs : List (Dir × PathSegment)) (depth : Nat)
  | notADir (pathdirs : List (Dir × PathSegment)) (depth : Nat)
deriving DecidableEq, Repr

deriving instance DecidableEq for Except

/-- Intermediate state of the trace loop: either an early return or the
directory reached after all intermediate segments. -/
inductive InterResult where
  | stop (r : Except FsError TraceResult)
  | done (dir : Dir) (pathdirs : List (Dir × PathSegment))
deriving DecidableEq, Repr

/-- The first loop of `Dir::trace_entity`, walking the intermediate segments
(`path.slice(..path.len()-1)`): descend through directories accumulating
`pathdirs`, classify an early stop. -/
def interLoop (st : Store) (path : Path) :
    List PathSegment → Dir → Nat → List (Dir × PathSegment) → InterResult
  | [], dir, _, pd => .done dir pd
  | seg :: rest, dir, depth, pd =>
    match getEntity st dir seg with
    | .error e => .stop (.error e)
    | .ok (some (.dir d)) => interLoop st path rest d (depth + 1) (pd ++ [(d, seg)])
    | .ok (some (.symlink _)) =>
      .stop (.error (.symLinkNotSupportedYet ⟨path.segments.take depth⟩))
    | .ok (some (.file _)) => .stop (.ok (.notADir pd depth))
    | .ok none => .stop (.ok (.incomplete pd depth))

/-- The part of `Dir::trace_entity` reached on a nonempty path: run the
intermediate loop, then resolve the last segment. -/
def traceNonEmpty (st : Store) (d : Dir) (path : Path) : Except FsError TraceResult :=
  match interLoop st path path.segments.dropLast d 0 [] with
  | .stop r => r
  | .done dir pd =>
    match path.segments.getLast? with
    | some seg =>
      match getEntity st dir seg with
      | .error e => .error e
      | .ok (some e) => .ok (.found e (some seg) pd)
      | .ok none => .ok (.incomplete pd path.segments.length)
    | none => .ok (.found (.dir dir) none pd)

/-- `Dir::trace_entity`.  On an empty path the source computes
`path.slice(..path.len() - 1)` where `path.len() - 1` underflows `usize`,
which panics; the panic is modelled as `none`. -/
def traceEntity (st : Store) (d : Dir) (path : Path) : Option (Except FsError TraceResult) :=
  match path.segments with
  | [] => none
  | _ :: _ => some (traceNonEmpty st d path)

/-- `Dir::get_or_create_entity`.  On `Incomplete` the source iterates
`path.slice(depth..path.len() - 1)`, which panics when `depth` exceeds
`path.len() - 1` (range start past its end); the panic is modelled as
`none`. -/
def getOrCreateEntity (st : Store) (d : Dir) (path : Path) (file : Bool) :
    Option (Except FsError (Entity × Option PathSegment × List (Dir × PathSegment))) :=
  match traceEntity st d path with
  | none => none
  | some (.error e) => some (.error e)
  | some (.ok (.found e n pd)) => some (.ok (e, n, pd))
  | some (.ok (.notADir _ depth)) =>
    some (.error (.notADirectory (some ⟨path.segments.take depth⟩)))
  | some (.ok (.incomplete pd depth)) =>
    if depth < path.segments.length then
      let inter := path.segments.dropLast.drop depth
      let pd2 := pd ++ inter.map (fun seg => (Dir.new, seg))
      let entity := if file then Entity.file File.new else Entity.dir Dir.new
      some (.ok (entity, path.segments.getLast?, pd2))
    else none

/-- Step-by-step descent through directories: the directory reached after
resolving each segment in turn to a subdirectory, `none` when some segment
does not resolve to a directory. -/
def descend (st : Store) (d : Dir) : List PathSegment → Option Dir
  | [] => some d
  | seg :: rest =>
    match getEntity st d seg with
    | .ok (some (.dir d2)) => descend st d2 rest
    | _ => none

/-- A directory handle (`DirHandle = Handle<Dir, S, T>` in `handle.rs`).
The shared `RootDir` anchor is omitted: it is only cloned into derived
handles and never consulted by the embedded operations. -/
structure DirHandle where
  dir : Dir
  name : Option PathSegment
  flags : DescriptorFlags
  pathdirs : List (Dir × PathSegment)
deriving DecidableEq, Repr

/-- An entity handle (`EntityHandle` in `entity.rs`), as minted by
`open_at`. -/
structure EntityHandle where
  entity : Entity
  name : Option PathSegment
  flags : DescriptorFlags
  pathdirs : List (Dir × PathSegment)
deriving DecidableEq, Repr

/-- The escalation condition of `open_at` (step 4): the handle lacks
MUTATE_DIR while the child would gain WRITE or MUTATE_DIR or the open
requests CREATE or TRUNCATE. -/
def escCond (selfFlags df : DescriptorFlags) (of : OpenFlags) : Bool :=
  !selfFlags.mutateDir && (df.mutateDir || df.write || of.create || of.truncate)

/-- The conflicting-flags condition of `open_at` (step 5): DIRECTORY combined
with CREATE, EXCLUSIVE or TRUNCATE. -/
def dirConflictCond (of : OpenFlags) : Bool :=
  of.directory && (of.create || of.exclusive || of.truncate)

/-- `DirHandle::open_at` (`dir/op_open_at.rs`): parse, the four flag and
permission checks in source order, then the CREATE/trace branch, then handle
construction.  `none` models a panic propagated from the trace engine. -/
def openAt (st : Store) (h : DirHandle) (pathStr : String)
    (openFlags : OpenFlags) (descriptorFlags : DescriptorFlags) :
    Option (Except FsError EntityHandle) :=
  match Path.tryFromString pathStr with
  | .error e => some (.error e)
  | .ok path =>
    if descriptorFlags.read = false then
      some (.error (.needAtLeastReadFlag path descriptorFlags))
    else if h.flags.read = false then
      some (.error .notAllowedToReadDir)
    else if escCond h.flags descriptorFlags openFlags then
      some (.error (.childPermissionEscalation path h.flags descriptorFlags openFlags))
    else if dirConflictCond openFlags then
      some (.error (.invalidOpenFlagsCombination path openFlags))
    else
      let step :=
        if openFlags.create then
          getOrCreateEntity st h.dir path true
        else
          match traceEntity st h.dir path with
          | none => none
          | some (.error e) => some (.error e)
          | some (.ok (.found e n pd)) =>
            if openFlags.exclusive then
              some (.error (.openFlagsExclusiveButEntityExists path openFlags))
            else some (.ok (e, n, pd))
          | some (.ok (.notADir _ depth)) =>
            some (.error (.notADirectory (some ⟨path.segments.take depth⟩)))
          | some (.ok (.incomplete _ depth)) =>
            some (.error (.notFound ⟨path.segments.take depth⟩))
      match step with
      | none => none
      | some (.error e) => some (.error e)
      | some (.ok (entity, name, pd)) =>
        match entity with
        | .dir d => some (.ok ⟨.dir d, name, descriptorFlags, pd⟩)
        | .file f =>
          if openFlags.directory then
            some (.error (.openFlagsDirectoryButEntityNotADir path openFlags))
          else
            some (.ok ⟨.file (if openFlags.truncate then { f with content := none } else f),
                       name, descriptorFlags, pd⟩)
        | .symlink _ => some (.error (.notAFileOrDir (some path)))

/-- The serializable form of a directory (`DirSerializable` in `dir/dir.rs`):
metadata plus a `BTreeMap<String, Cid>` of entries, modelled as a key-sorted
association list. -/
structure DirSerializable where
  metadata : Metadata
  entries : List (String × Cid)
deriving DecidableEq, Repr

/-- `BTreeMap::insert` on the sorted association list, keyed by the string
order (`str::cmp`). -/
def btreeInsert : List (String × Cid) → String → Cid → List (String × Cid)
  | [], k, v => [(k, v)]
  | (k2, v2) :: rest, k, v =>
    match strCmp k k2 with
    | .lt => (k, v) :: (k2, v2) :: rest
    | .eq => (k, v) :: rest
    | .gt => (k2, v2) :: btreeInsert rest k v

/-- `Serialize for Dir`: keep the metadata, render each entry key with
`to_string` and collect into the `BTreeMap`. -/
def serializeDir (d : Dir) : DirSerializable :=
  { metadata := d.metadata,
    entries := d.entries.foldl (fun acc p => btreeInsert acc p.1.asStr p.2) [] }

/-- The entry conversion inside `Dir::try_from_serializable`: parse each key
back into a `PathSegment`, failing on an invalid key. -/
def tryFromEntries : List (String × Cid) → Except FsError (List (PathSegment × Cid))
  | [] => .ok []
  | (s, c) :: rest => do
    let seg ← PathSegment.tryFromString s
    let tail ← tryFromEntries rest
    pure ((seg, c) :: tail)

/-- `Dir::try_from_serializable`: convert the keys and collect the pairs into
the `HashMap` in iteration order. -/
def tryFromSerializable (s : DirSerializable) : Except FsError Dir := do
  let pairs ← tryFromEntries s.entries
  pure { metadata := s.metadata,
         entries := pairs.foldl (fun acc p => entriesInsert acc p.1 p.2) [] }

/-- Modelled from the spec: the node side of the block store contract
(spec §4.5/§6) used by `Storable for Dir`.  `put_node` stores a serialized
node under a fresh CID; `get_node` returns the bytes stored under a CID;
equal serialized forms give equal CIDs and a CID uniquely determines its
content. -/
abbrev NodeStore := List DirSerializable

/-- `put_node` for directory nodes: append and address by position. -/
def putNode (st : NodeStore) (x : DirSerializable) : Cid × NodeStore :=
  (st.length, st ++ [x])

/-- `get_node` for directory nodes. -/
def getNode (st : NodeStore) (cid : Cid) : Option DirSerializable :=
  st.get? cid

/-- `Storable::store for Dir`: serialize and `put_node`. -/
def Dir.storeNode (st : NodeStore) (d : Dir) : Cid × NodeStore :=
  putNode st (serializeDir d)

/-- `Storable::load for Dir`: `get_node` then `try_from_serializable`. -/
def Dir.loadNode (st : NodeStore) (cid : Cid) : Option (Except FsError Dir) :=
  (getNode st cid).map tryFromSerializable

/-- `PartialEq for Dir` (via `DirInner`): equal metadata, equal entry counts
and every entry of the left map present in the right map with an equal CID
(`HashMap` equality with identifier-only link equality). -/
def dirBeq (a b : Dir) : Bool :=
  decide (a.metadata = b.metadata)
    && a.entries.length == b.entries.length
    && a.entries.all (fun p => entriesGet b.entries p.1 == some p.2)

/-- A segment as it may occur as a directory entry key: its named form
revalidates against the segment regex (guaranteed at construction by
`Dir::put` and `try_from_serializable`). -/
def segWellFormed : PathSegment → Bool
  | .named s => reValidPathSegment s
  | _ => true

/-- No two keys of the entries list share the same case-folded form
(directory invariant (a) of the spec, maintained by the case-insensitive
`HashMap`). -/
def keysDistinct : List (PathSegment × Cid) → Bool
  | [] => true
  | (k, _) :: rest => rest.all (fun p => !segBeq k p.1) && keysDistinct rest

/-- Well-formedness of a directory's entries map: valid keys, pairwise
distinct modulo case folding. -/
def entriesWellFormed (l : List (PathSegment × Cid)) : Bool :=
  l.all (fun p => segWellFormed p.1) && keysDistinct l

/-- `PathSegment::is_named`. -/
def PathSegment.isNamed : PathSegment → Bool
  | .named _ => true
  | _ => false

/-- A handle on a fresh empty root with READ and MUTATE_DIR rights. -/
def exRootHandle : DirHandle := ⟨Dir.new, none, ⟨true, false, true⟩, []⟩

/-- Open flags CREATE | EXCLUSIVE. -/
def exCreateExclusive : OpenFlags := ⟨true, false, true, false⟩

/-- Open flags EXCLUSIVE alone. -/
def exExclusiveOnly : OpenFlags := ⟨false, false, true, false⟩

/-- Empty open flags. -/
def exNoOpenFlags : OpenFlags := ⟨false, false, false, false⟩

/-- Descriptor flags READ | WRITE. -/
def exReadWrite : DescriptorFlags := ⟨true, true, false⟩

/-- Descriptor flags READ alone. -/
def exReadOnly : DescriptorFlags := ⟨true, false, false⟩

/-- A directory holding one entry `file` at CID 2. -/
def exPubDir : Dir := { metadata := Metadata.new .dir, entries := [(.named "file", 2)] }

/-- A root directory holding one entry `public` at CID 1. -/
def exRootWithPub : Dir := { metadata := Metadata.new .dir, entries := [(.named "public", 1)] }

/-- A store resolving CID 1 to `exPubDir` and CID 2 to an empty file:
the post-flush picture after creating `/public/file`. -/
def exStorePub : Store := [(1, .dir exPubDir), (2, .file File.new)]

/-- A READ | MUTATE_DIR handle on `exRootWithPub`. -/
def exHandlePub : DirHandle := ⟨exRootWithPub, none, ⟨true, false, true⟩, []⟩

/-- A root directory holding one entry `a` at CID 5. -/
def exRootWithA : Dir := { metadata := Metadata.new .dir, entries := [(.named "a", 5)] }

/-- A store resolving CID 5 to an empty directory. -/
def exStoreA : Store := [(5, .dir Dir.new)]

/-- The two-segment path `/a/b`. -/
def exPathAB : Path := ⟨[.named "a", .named "b"]⟩

/-- A directory with three entries (two case-distinct named keys and a
`.` key) used to exercise the serialization round trip. -/
def exDirForSer : Dir :=
  { metadata := Metadata.new .dir, entries := [(.named "B", 7), (.named "a", 3), (.currentDir, 9)] }

/-- Classifier for the errors the trace engine itself can produce: a symlink
encountered mid-walk, or a store failure during link resolution. -/
def postTraceErr : FsError → Bool
  | .symLinkNotSupportedYet _ => true
  | .ipldStore => true
  | _ => false

/-- Classifier for the errors the post-check phase of `open_at` (step 7
onwards) can produce; disjoint from the five up-front check errors. -/
def mainPhaseErr : FsError → Bool
  | .symLinkNotSupportedYet _ => true
  | .ipldStore => true
  | .notADirectory _ => true
  | .notFound _ => true
  | .openFlagsExclusiveButEntityExists _ _ => true
  | .openFlagsDirectoryButEntityNotADir _ _ => true
  | .notAFileOrDir _ => true
  | _ => false

/-- Proof-level recharacterization of the `BTreeMap` collect at the
`PathSegment` level: insert a pair positioned by the string rendering of its
key.  Mapping `asStr` over the result commutes with `btreeInsert`. -/
def btreeInsertSeg : List (PathSegment × Cid) → PathSegment → Cid → List (PathSegment × Cid)
  | [], k, v => [(k, v)]
  | (k2, v2) :: rest, k, v =>
    match strCmp k.asStr k2.asStr with
    | .lt => (k, v) :: (k2, v2) :: rest
    | .eq => (k, v) :: rest
    | .gt => (k2, v2) :: btreeInsertSeg rest k v

/-- C1: the claim states that whenever `trace_entity` returns `Incomplete`,
`get_or_create_entity(path, file=true)` succeeds, filling in the missing
intermediate directories (zero of them for a one-segment path).  The code
instead panics whenever `Incomplete` carries `depth = path.len()` — the case
in which only the terminal entry is missing — because
`path.slice(depth..path.len()-1)` is a range whose start exceeds its end.
Evaluated at the concrete failing input (fresh empty root, one-segment path
`file`): the trace returns `Incomplete` with depth 1, and both
`get_or_create_entity` and the `open_at` CREATE call reach the panic,
modelled as `none`. -/
theorem c1_create_with_terminal_missing_panics :
    traceEntity [] Dir.new ⟨[.named "file"]⟩ =
      some (.ok (.incomplete [] 1)) ∧
    getOrCreateEntity [] Dir.new ⟨[.named "file"]⟩ true = none ∧
    openAt [] exRootHandle "file" exCreateExclusive exReadWrite = none := by
  refine ⟨by decide, by decide, by decide⟩

/-- C2: the claim states that tracing the empty path returns
`Found` with the directory itself, `name = None` and empty `pathdirs`, and
that `open_at` of an empty path does not fail inside the trace.  The code
instead panics on every empty path: `trace_entity` computes
`path.slice(..path.len() - 1)` and `0usize - 1` underflows, so the
`Found { name: None }` branch after the loop is unreachable.  The panic is
modelled as `none`, for every store and directory, and in particular for a
readable `open_at` of `""`. -/
theorem c2_trace_empty_path_panics :
    (∀ (st : Store) (d : Dir), traceEntity st d ⟨[]⟩ = none) ∧
    openAt [] exRootHandle "" exNoOpenFlags exReadOnly = none := by
  refine ⟨fun st d => rfl, by decide⟩

/-- C3: the claim states that `open_at` with CREATE and EXCLUSIVE on a path
that already resolves fails with `OpenFlagsExclusiveButEntityExists`.  In the
code the EXCLUSIVE check lives only in the non-CREATE branch, so re-opening
`/public/file` with CREATE | EXCLUSIVE after the file became visible succeeds
and returns a handle to the existing file instead of failing. -/
theorem c3_create_exclusive_on_existing_succeeds :
    openAt exStorePub exHandlePub "/public/file" exCreateExclusive exReadWrite =
      some (.ok ⟨.file File.new, some (.named "file"), exReadWrite,
                 [(exPubDir, .named "public")]⟩) := by
  decide

/-- A segment produced by `canonGo` output tracking: every segment the
canonicalization loop emits is a named segment. -/
theorem canonGo_output_named :
    ∀ (segs : List PathSegment) (i : Nat) (acc out : List PathSegment),
      (∀ x ∈ acc, x.isNamed = true) → canonGo segs i acc = .ok out →
      ∀ x ∈ out, x.isNamed = true := by
  intro segs
  induction segs with
  | nil =>
    intro i acc out hacc h x hx
    simp only [canonGo] at h
    cases h
    exact hacc x hx
  | cons seg rest ih =>
    intro i acc out hacc h x hx
    cases seg with
    | currentDir =>
      simp only [canonGo] at h
      by_cases hi : i = 0
      · simp [hi] at h
      · rw [if_neg hi] at h
        exact ih (i + 1) acc out hacc h x hx
    | parentDir =>
      simp only [canonGo] at h
      by_cases he : acc.isEmpty
      · simp [he] at h
      · rw [if_neg he] at h
        refine ih (i + 1) acc.dropLast out ?_ h x hx
        intro y hy
        exact hacc y (List.dropLast_subset acc hy)
    | named s =>
      simp only [canonGo] at h
      refine ih (i + 1) (acc ++ [.named s]) out ?_ h x hx
      intro y hy
      rcases List.mem_append.mp hy with hy1 | hy2
      · exact hacc y hy1
      · simp only [List.mem_singleton] at hy2
        subst hy2
        rfl

/-- Canonicalizing a list of named segments appends them unchanged. -/
theorem canonGo_all_named :
    ∀ (segs : List PathSegment), (∀ x ∈ segs, x.isNamed = true) →
      ∀ (i : Nat) (acc : List PathSegment), canonGo segs i acc = .ok (acc ++ segs) := by
  intro segs
  induction segs with
  | nil => intro _ i acc; simp [canonGo]
  | cons seg rest ih =>
    intro hall i acc
    cases seg with
    | currentDir =>
      have h0 := hall PathSegment.currentDir (by simp)
      simp [PathSegment.isNamed] at h0
    | parentDir =>
      have h0 := hall PathSegment.parentDir (by simp)
      simp [PathSegment.isNamed] at h0
    | named s =>
      simp only [canonGo]
      have hrec := ih (fun x hx => hall x (List.mem_cons_of_mem _ hx)) (i + 1)
        (acc ++ [PathSegment.named s])
      rw [hrec]
      simp

/-- C7: path canonicalization is idempotent — when `canonicalize` succeeds,
its output consists only of named segments, and canonicalizing that output
returns it unchanged. -/
theorem c7_canonicalize_idempotent (p q : Path) (h : p.canonicalize = .ok q) :
    q.canonicalize = .ok q := by
  unfold Path.canonicalize at h ⊢
  cases hc : canonGo p.segments 0 [] with
  | error e => rw [hc] at h; cases h
  | ok out =>
    rw [hc] at h
    simp only [Except.map] at h
    cases h
    have hnamed : ∀ x ∈ out, x.isNamed = true :=
      canonGo_output_named p.segments 0 [] out (by intro x hx; cases hx) hc
    rw [canonGo_all_named out hnamed 0 []]
    simp [Except.map]

/-- Witness for C7 at a concrete path containing `..`. -/
theorem c7_witness :
    Path.canonicalize ⟨[.named "a", .parentDir, .named "b"]⟩ = .ok ⟨[.named "b"]⟩ ∧
    Path.canonicalize ⟨[.named "b"]⟩ = .ok ⟨[.named "b"]⟩ :=
  ⟨by decide,
   c7_canonicalize_idempotent ⟨[.named "a", .parentDir, .named "b"]⟩ ⟨[.named "b"]⟩ (by decide)⟩

/-- Segment equality follows from equality of canonical forms. -/
theorem segBeq_of_canon_eq {a b : PathSegment} (h : a.canon = b.canon) :
    segBeq a b = true := by
  cases hb : b.canon <;> simp [segBeq, h, hb]

/-- Character comparison is reflexive. -/
theorem charCmp_self (c : Char) : charCmp c c = .eq := by
  simp [charCmp]

/-- Character-list comparison is reflexive. -/
theorem charListCmp_self : ∀ l : List Char, charListCmp l l = .eq := by
  intro l
  induction l with
  | nil => rfl
  | cons c rest ih => simp [charListCmp, charCmp_self, ih]

/-- String comparison is reflexive. -/
theorem strCmp_self (s : String) : strCmp s s = .eq := by
  simp [strCmp, charListCmp_self]

/-- Segment ordering compares equal on equal canonical forms. -/
theorem segCmp_of_canon_eq {a b : PathSegment} (h : a.canon = b.canon) :
    segCmp a b = .eq := by
  simp [segCmp, h, strCmp_self]

/-- Segment lists that agree after canonicalization compare equal, order
equal, and feed the hasher identical data. -/
theorem segList_canon_eq :
    ∀ xs ys : List PathSegment, xs.map PathSegment.canon = ys.map PathSegment.canon →
      segListBeq xs ys = true ∧ segListCmp xs ys = .eq ∧
        xs.map segHashInput = ys.map segHashInput := by
  intro xs
  induction xs with
  | nil =>
    intro ys h
    cases ys with
    | nil => exact ⟨rfl, rfl, rfl⟩
    | cons y ys2 => simp at h
  | cons x xs2 ih =>
    intro ys h
    cases ys with
    | nil => simp at h
    | cons y ys2 =>
      simp only [List.map_cons, List.cons.injEq] at h
      obtain ⟨hhead, htail⟩ := h
      obtain ⟨h1, h2, h3⟩ := ih ys2 htail
      refine ⟨?_, ?_, ?_⟩
      · simp [segListBeq, segBeq_of_canon_eq hhead, h1]
      · simp [segListCmp, segCmp_of_canon_eq hhead, h2]
      · simp only [List.map_cons, List.cons.injEq]
        exact ⟨by simp [segHashInput, hhead], h3⟩

/-- C9: paths whose segment sequences agree after lowercasing named segments
compare equal (`PartialEq`), order equal (`Ord`), and feed identical data to
any hasher (`Hash` agrees with equality); in particular the two spellings
`/A/b/C` and `/a/B/c` parse to equal paths with equal hash input. -/
theorem c9_case_insensitive_eq_ord_hash :
    (∀ a b : Path, a.segments.map PathSegment.canon = b.segments.map PathSegment.canon →
       pathBeq a b = true ∧ pathCmp a b = .eq ∧ pathHashInput a = pathHashInput b) ∧
    Path.tryFromString "/A/b/C" = .ok ⟨[.named "A", .named "b", .named "C"]⟩ ∧
    Path.tryFromString "/a/B/c" = .ok ⟨[.named "a", .named "B", .named "c"]⟩ ∧
    pathBeq ⟨[.named "A", .named "b", .named "C"]⟩ ⟨[.named "a", .named "B", .named "c"]⟩ = true ∧
    pathHashInput ⟨[.named "A", .named "b", .named "C"]⟩ =
      pathHashInput ⟨[.named "a", .named "B", .named "c"]⟩ := by
  refine ⟨fun a b h => segList_canon_eq a.segments b.segments h, by decide, by decide,
    by decide, by decide⟩

/-- Witness for C9's quantified part, applied at the two concrete
spellings. -/
theorem c9_witness :
    pathBeq ⟨[.named "Xy", .named "z0"]⟩ ⟨[.named "xY", .named "Z0"]⟩ = true ∧
    pathCmp ⟨[.named "Xy", .named "z0"]⟩ ⟨[.named "xY", .named "Z0"]⟩ = .eq ∧
    pathHashInput ⟨[.named "Xy", .named "z0"]⟩ = pathHashInput ⟨[.named "xY", .named "Z0"]⟩ :=
  c9_case_insensitive_eq_ord_hash.1 ⟨[.named "Xy", .named "z0"]⟩ ⟨[.named "xY", .named "Z0"]⟩
    (by decide)

/-- Segment equality is equivalent to equality of canonical forms. -/
theorem segBeq_iff_canon {a b : PathSegment} :
    segBeq a b = true ↔ a.canon = b.canon := by
  constructor
  · intro h
    cases ha : a.canon <;> cases hb : b.canon <;>
      simp [segBeq, ha, hb] at h ⊢
    exact h
  · exact segBeq_of_canon_eq

/-- Inserting twice under case-equal names leaves the second CID retrievable
under the original name (`HashMap::insert` keeps the first matching key and
replaces its value). -/
theorem entriesGet_insert_insert (n n2 : PathSegment) (c1 c2 : Cid)
    (hb : segBeq n2 n = true) :
    ∀ l, entriesGet (entriesInsert (entriesInsert l n c1) n2 c2) n = some c2 := by
  have hcanon : n2.canon = n.canon := segBeq_iff_canon.mp hb
  intro l
  induction l with
  | nil =>
    simp only [entriesInsert]
    rw [if_pos (segBeq_of_canon_eq hcanon.symm)]
    simp only [entriesGet]
    rw [if_pos (segBeq_of_canon_eq rfl)]
  | cons p rest ih =>
    obtain ⟨k, v⟩ := p
    by_cases hk : segBeq k n = true
    · have hkc : k.canon = n.canon := segBeq_iff_canon.mp hk
      simp only [entriesInsert]
      rw [if_pos hk]
      simp only [entriesInsert]
      rw [if_pos (segBeq_of_canon_eq (hkc.trans hcanon.symm))]
      simp only [entriesGet]
      rw [if_pos hk]
    · have hk2 : segBeq k n2 = false := by
        by_contra hcontra
        have : segBeq k n2 = true := by
          cases hx : segBeq k n2 with
          | true => rfl
          | false => exact absurd hx hcontra
        exact hk (segBeq_of_canon_eq ((segBeq_iff_canon.mp this).trans hcanon))
      simp only [entriesInsert]
      rw [if_neg (by simp [hk])]
      simp only [entriesInsert]
      rw [if_neg (by simp [hk2])]
      simp only [entriesGet]
      rw [if_neg (by simp [hk])]
      exact ih

/-- Any key of an inserted entries list is the inserted name or one of the
original keys. -/
theorem entriesInsert_keys :
    ∀ (l : List (PathSegment × Cid)) (n : PathSegment) (c : Cid) (q : PathSegment × Cid),
      q ∈ entriesInsert l n c → q.1 = n ∨ q.1 ∈ l.map Prod.fst := by
  intro l
  induction l with
  | nil =>
    intro n c q hq
    simp only [entriesInsert, List.mem_singleton] at hq
    subst hq
    exact Or.inl rfl
  | cons p rest ih =>
    intro n c q hq
    obtain ⟨k, v⟩ := p
    simp only [entriesInsert] at hq
    by_cases hk : segBeq k n = true
    · rw [if_pos hk] at hq
      rcases List.mem_cons.mp hq with h1 | h2
      · subst h1; exact Or.inr (by simp)
      · refine Or.inr ?_
        simp only [List.map_cons, List.mem_cons]
        exact Or.inr (List.mem_map_of_mem Prod.fst h2)
    · rw [if_neg hk] at hq
      rcases List.mem_cons.mp hq with h1 | h2
      · subst h1; exact Or.inr (by simp)
      · rcases ih n c q h2 with h3 | h4
        · exact Or.inl h3
        · exact Or.inr (by simp [h4])

/-- `HashMap::insert` preserves the pairwise-distinct-keys invariant. -/
theorem keysDistinct_insert :
    ∀ (l : List (PathSegment × Cid)) (n : PathSegment) (c : Cid),
      keysDistinct l = true → keysDistinct (entriesInsert l n c) = true := by
  intro l
  induction l with
  | nil => intro n c _; simp [entriesInsert, keysDistinct]
  | cons p rest ih =>
    intro n c hd
    obtain ⟨k, v⟩ := p
    simp only [keysDistinct, Bool.and_eq_true, List.all_eq_true] at hd
    obtain ⟨hall, hrest⟩ := hd
    by_cases hk : segBeq k n = true
    · simp only [entriesInsert]
      rw [if_pos hk]
      simp only [keysDistinct, Bool.and_eq_true, List.all_eq_true]
      exact ⟨hall, hrest⟩
    · simp only [entriesInsert]
      rw [if_neg hk]
      simp only [keysDistinct, Bool.and_eq_true, List.all_eq_true]
      refine ⟨?_, ih n c hrest⟩
      intro q hq
      rcases entriesInsert_keys rest n c q hq with h1 | h2
      · rw [h1]; simp [hk]
      · rcases List.mem_map.mp h2 with ⟨q2, hq2, hfst⟩
        have := hall q2 hq2
        rw [← hfst]
        exact this

/-- C10: directory entry insertion is last-write-wins on case-equal keys —
after `put n c1` then `put n2 c2` with `n2` equal to `n` modulo case,
`get n` returns `c2`; and `put` preserves the invariant that no two entry
keys share a case-folded form. -/
theorem c10_put_last_write_wins (d : Dir) (n n2 : PathSegment) (c1 c2 : Cid)
    (hb : segBeq n2 n = true) :
    Dir.get ((d.put n c1).put n2 c2) n = some c2 ∧
    (keysDistinct d.entries = true →
      keysDistinct ((d.put n c1).put n2 c2).entries = true) := by
  constructor
  · exact entriesGet_insert_insert n n2 c1 c2 hb d.entries
  · intro hd
    exact keysDistinct_insert _ n2 c2 (keysDistinct_insert _ n c1 hd)

/-- Witness for C10 with the two case-variant spellings `A` and `a` over a
directory that already holds an unrelated entry. -/
theorem c10_witness :
    Dir.get ((Dir.put ⟨Metadata.new .dir, [(.named "x", 9)]⟩ (.named "A") 1).put (.named "a") 2)
        (.named "A") = some 2 ∧
    (keysDistinct (⟨Metadata.new .dir, [(.named "x", 9)]⟩ : Dir).entries = true →
      keysDistinct ((Dir.put ⟨Metadata.new .dir, [(.named "x", 9)]⟩ (.named "A") 1).put
        (.named "a") 2).entries = true) :=
  c10_put_last_write_wins ⟨Metadata.new .dir, [(.named "x", 9)]⟩ (.named "A") (.named "a") 1 2
    (by decide)

/-- When the intermediate loop of the trace runs to completion, the final
directory is the result of descending through every intermediate segment. -/
theorem interLoop_done_descend (st : Store) (path : Path) :
    ∀ (segs : List PathSegment) (dir : Dir) (depth : Nat)
      (pd pd2 : List (Dir × PathSegment)) (dir2 : Dir),
      interLoop st path segs dir depth pd = .done dir2 pd2 →
      descend st dir segs = some dir2 := by
  intro segs
  induction segs with
  | nil =>
    intro dir depth pd pd2 dir2 h
    simp only [interLoop, InterResult.done.injEq] at h
    rw [h.1]
    rfl
  | cons seg rest ih =>
    intro dir depth pd pd2 dir2 h
    simp only [interLoop] at h
    cases hg : getEntity st dir seg with
    | error e => rw [hg] at h; simp at h
    | ok oe =>
      cases oe with
      | none => rw [hg] at h; simp at h
      | some e =>
        cases e with
        | file f => rw [hg] at h; simp at h
        | symlink s2 => rw [hg] at h; simp at h
        | dir d2 =>
          rw [hg] at h
          simp only [descend, hg]
          exact ih d2 (depth + 1) (pd ++ [(d2, seg)]) pd2 dir2 h

/-- When the intermediate loop stops with `Incomplete`, the reported depth
counts from the loop's starting depth, lies inside the segment list, and the
segments walked so far descend through directories. -/
theorem interLoop_incomplete_descend (st : Store) (path : Path) :
    ∀ (segs : List PathSegment) (dir : Dir) (depth : Nat)
      (pd pd2 : List (Dir × PathSegment)) (k : Nat),
      interLoop st path segs dir depth pd = .stop (.ok (.incomplete pd2 k)) →
      depth ≤ k ∧ k - depth < segs.length ∧
        (descend st dir (segs.take (k - depth))).isSome = true := by
  intro segs
  induction segs with
  | nil =>
    intro dir depth pd pd2 k h
    simp [interLoop] at h
  | cons seg rest ih =>
    intro dir depth pd pd2 k h
    simp only [interLoop] at h
    cases hg : getEntity st dir seg with
    | error e => rw [hg] at h; simp at h
    | ok oe =>
      cases oe with
      | none =>
        rw [hg] at h
        simp only [InterResult.stop.injEq, Except.ok.injEq, TraceResult.incomplete.injEq] at h
        obtain ⟨-, hk⟩ := h
        subst hk
        refine ⟨Nat.le_refl _, by simp, ?_⟩
        simp [descend]
      | some e =>
        cases e with
        | file f => rw [hg] at h; simp at h
        | symlink s2 => rw [hg] at h; simp at h
        | dir d2 =>
          rw [hg] at h
          obtain ⟨h1, h2, h3⟩ := ih d2 (depth + 1) (pd ++ [(d2, seg)]) pd2 k h
          refine ⟨by omega, by simp; omega, ?_⟩
          have hsplit : k - depth = (k - (depth + 1)) + 1 := by omega
          rw [hsplit, List.take_succ_cons]
          simp only [descend, hg]
          exact h3

/-- C5 counterexample: with a root holding only the empty directory `a` and
the path `/a/b`, the trace returns `Incomplete` with `depth = 2 = p.len()`,
yet the first 2 segments of the path do not all resolve to directories —
`b` does not resolve at all — refuting the claim's inclusion of
`depth == p.len()`. -/
theorem c5_counterexample_depth_equals_len :
    traceEntity exStoreA exRootWithA exPathAB =
      some (.ok (.incomplete [(Dir.new, .named "a")] 2)) ∧
    descend exStoreA exRootWithA (exPathAB.segments.take 2) = none := by
  refine ⟨by decide, by decide⟩

/-- C5 (amended): when `trace_entity` returns `Incomplete { depth }`, the
depth is at most `p.len()`, and the first `min depth (p.len()-1)` segments
resolve step by step to directories — that is, all `depth` walked segments
when the stop happened among the intermediates (`depth < p.len()`), and the
`p.len()-1` intermediate segments when only the terminal was missing
(`depth = p.len()`). -/
theorem c5_amended_incomplete_prefix_resolves (st : Store) (d : Dir) (p : Path)
    (pd : List (Dir × PathSegment)) (depth : Nat)
    (h : traceEntity st d p = some (.ok (.incomplete pd depth))) :
    depth ≤ p.segments.length ∧
    (descend st d (p.segments.take (min depth (p.segments.length - 1)))).isSome = true := by
  obtain ⟨segs⟩ := p
  cases segs with
  | nil => simp [traceEntity] at h
  | cons a rest =>
    simp only [traceEntity, Option.some.injEq] at h
    unfold traceNonEmpty at h
    dsimp only at h ⊢
    cases hi : interLoop st ⟨a :: rest⟩ (a :: rest).dropLast d 0 [] with
    | stop r =>
      rw [hi] at h
      dsimp only at h
      subst h
      obtain ⟨-, h2, h3⟩ :=
        interLoop_incomplete_descend st ⟨a :: rest⟩ (a :: rest).dropLast d 0 [] pd depth hi
      rw [List.length_dropLast] at h2
      simp only [Nat.sub_zero] at h2 h3
      constructor
      · omega
      · have hmin : min depth ((a :: rest).length - 1) = depth := by omega
        rw [List.dropLast_eq_take, List.take_take] at h3
        exact h3
    | done dir pd0 =>
      rw [hi] at h
      dsimp only at h
      cases hl : (a :: rest).getLast? with
      | none => simp at hl
      | some seg =>
        rw [hl] at h
        dsimp only at h
        cases hg : getEntity st dir seg with
        | error e => rw [hg] at h; cases h
        | ok oe =>
          cases oe with
          | some e => rw [hg] at h; cases h
          | none =>
            rw [hg] at h
            simp only [Except.ok.injEq, TraceResult.incomplete.injEq] at h
            obtain ⟨-, hdep⟩ := h
            subst hdep
            constructor
            · exact Nat.le_refl _
            · have hmin : min (a :: rest).length ((a :: rest).length - 1) =
                  (a :: rest).length - 1 := by omega
              rw [hmin, ← List.dropLast_eq_take]
              rw [interLoop_done_descend st ⟨a :: rest⟩ (a :: rest).dropLast d 0 [] pd0 dir hi]
              rfl

/-- Witness for the amended C5 at the concrete `Incomplete` trace with
`depth = p.len()`. -/
theorem c5_witness :
    2 ≤ exPathAB.segments.length ∧
    (descend exStoreA exRootWithA
      (exPathAB.segments.take (min 2 (exPathAB.segments.length - 1)))).isSome = true :=
  c5_amended_incomplete_prefix_resolves exStoreA exRootWithA exPathAB
    [(Dir.new, .named "a")] 2 (by decide)

/-- C4 counterexample: on a fresh root with READ | MUTATE_DIR,
`open_at("/public/file", EXCLUSIVE, READ|WRITE)` fails with `NotFound`
carrying the empty prefix (depth 0: the trace descended through no
directory), not `NotFound("/public")` as the claim states — the payloads
differ both structurally and under the path `PartialEq`. -/
theorem c4_counterexample_notfound_prefix_empty :
    openAt [] exRootHandle "/public/file" exExclusiveOnly exReadWrite =
      some (.error (.notFound ⟨[]⟩)) ∧
    pathBeq ⟨[]⟩ ⟨[.named "public"]⟩ = false ∧
    (⟨[]⟩ : Path) ≠ ⟨[.named "public"]⟩ := by
  refine ⟨by decide, by decide, by decide⟩

/-- C4 (amended): when `open_at` runs without CREATE and the trace returns
`Incomplete { depth }`, it fails with `NotFound` carrying the prefix of the
first `depth` segments — the segments of the directories actually descended,
which is the empty prefix in the fresh-root scenario. -/
theorem c4_amended_notfound_carries_depth_prefix (st : Store) (h : DirHandle) (s : String)
    (of : OpenFlags) (df : DescriptorFlags) (p : Path)
    (pd : List (Dir × PathSegment)) (depth : Nat)
    (hparse : Path.tryFromString s = .ok p)
    (hdf : df.read = true) (hread : h.flags.read = true)
    (hesc : escCond h.flags df of = false)
    (hconf : dirConflictCond of = false)
    (hcreate : of.create = false)
    (htrace : traceEntity st h.dir p = some (.ok (.incomplete pd depth))) :
    openAt st h s of df = some (.error (.notFound ⟨p.segments.take depth⟩)) := by
  simp [openAt, hparse, hdf, hread, hesc, hconf, hcreate, htrace]

/-- Witness for the amended C4 at the concrete fresh-root scenario. -/
theorem c4_witness :
    openAt [] exRootHandle "/public/file" exExclusiveOnly exReadWrite =
      some (.error (.notFound ⟨[]⟩)) :=
  c4_amended_notfound_carries_depth_prefix [] exRootHandle "/public/file"
    exExclusiveOnly exReadWrite ⟨[.named "public", .named "file"]⟩ [] 0
    (by decide) (by decide) (by decide) (by decide) (by decide) (by decide) (by decide)

/-- The only error `get_entity` can raise is a store error. -/
theorem getEntity_error_ipld (st : Store) (d : Dir) (seg : PathSegment) (e : FsError)
    (h : getEntity st d seg = .error e) : e = .ipldStore := by
  unfold getEntity at h
  cases hg : entriesGet d.entries seg with
  | none => rw [hg] at h; cases h
  | some cid =>
    rw [hg] at h
    dsimp only at h
    cases hs : storeGet st cid with
    | some e2 => rw [hs] at h; cases h
    | none => rw [hs] at h; cases h; rfl

/-- The intermediate trace loop only stops with a symlink error or a store
error. -/
theorem interLoop_stop_error (st : Store) (path : Path) :
    ∀ (segs : List PathSegment) (dir : Dir) (depth : Nat)
      (pd : List (Dir × PathSegment)) (e : FsError),
      interLoop st path segs dir depth pd = .stop (.error e) → postTraceErr e = true := by
  intro segs
  induction segs with
  | nil => intro dir depth pd e h; simp [interLoop] at h
  | cons seg rest ih =>
    intro dir depth pd e h
    simp only [interLoop] at h
    cases hg : getEntity st dir seg with
    | error e2 =>
      rw [hg] at h
      simp only [InterResult.stop.injEq, Except.error.injEq] at h
      subst h
      rw [getEntity_error_ipld st dir seg e2 hg]
      rfl
    | ok oe =>
      cases oe with
      | none => rw [hg] at h; simp at h
      | some ent =>
        cases ent with
        | file f => rw [hg] at h; simp at h
        | symlink s2 =>
          rw [hg] at h
          simp only [InterResult.stop.injEq, Except.error.injEq] at h
          subst h
          rfl
        | dir d2 =>
          rw [hg] at h
          exact ih d2 (depth + 1) (pd ++ [(d2, seg)]) e h

/-- The trace engine only raises symlink or store errors. -/
theorem traceEntity_error_shape (st : Store) (d : Dir) (p : Path) (e : FsError)
    (h : traceEntity st d p = some (.error e)) : postTraceErr e = true := by
  obtain ⟨segs⟩ := p
  cases segs with
  | nil => simp [traceEntity] at h
  | cons a rest =>
    simp only [traceEntity, Option.some.injEq] at h
    unfold traceNonEmpty at h
    dsimp only at h
    cases hi : interLoop st ⟨a :: rest⟩ (a :: rest).dropLast d 0 [] with
    | stop r =>
      rw [hi] at h
      dsimp only at h
      subst h
      exact interLoop_stop_error st ⟨a :: rest⟩ (a :: rest).dropLast d 0 [] e hi
    | done dir pd0 =>
      rw [hi] at h
      dsimp only at h
      cases hl : (a :: rest).getLast? with
      | none => simp at hl
      | some seg =>
        rw [hl] at h
        dsimp only at h
        cases hg : getEntity st dir seg with
        | error e2 =>
          rw [hg] at h
          simp only [Except.error.injEq] at h
          subst h
          rw [getEntity_error_ipld st dir seg e2 hg]
          rfl
        | ok oe =>
          cases oe with
          | some ent => rw [hg] at h; cases h
          | none => rw [hg] at h; cases h

/-- Trace-phase errors are post-check errors. -/
theorem postTraceErr_imp_main (e : FsError) (h : postTraceErr e = true) :
    mainPhaseErr e = true := by
  cases e <;> simp_all [postTraceErr, mainPhaseErr]

/-- `get_or_create_entity` only raises trace errors or `NotADirectory`. -/
theorem getOrCreate_error_shape (st : Store) (d : Dir) (p : Path) (file : Bool) (e : FsError)
    (h : getOrCreateEntity st d p file = some (.error e)) : mainPhaseErr e = true := by
  unfold getOrCreateEntity at h
  cases htr : traceEntity st d p with
  | none => rw [htr] at h; cases h
  | some r =>
    rw [htr] at h
    cases r with
    | error e0 =>
      simp only [Option.some.injEq, Except.error.injEq] at h
      subst h
      exact postTraceErr_imp_main _ (traceEntity_error_shape st d p _ htr)
    | ok tr =>
      cases tr with
      | found ent n pd => simp at h
      | notADir pd depth =>
        simp only [Option.some.injEq, Except.error.injEq] at h
        subst h
        rfl
      | incomplete pd depth =>
        dsimp only at h
        by_cases hlt : depth < p.segments.length
        · rw [if_pos hlt] at h; cases h
        · rw [if_neg hlt] at h; cases h

/-- Once the five up-front checks of `open_at` pass, every error the call can
still return belongs to the post-check phase. -/
theorem openAt_post_check_errors (st : Store) (h : DirHandle) (s : String)
    (of : OpenFlags) (df : DescriptorFlags) (p : Path)
    (hparse : Path.tryFromString s = .ok p)
    (hdf : df.read = true) (hread : h.flags.read = true)
    (hesc : escCond h.flags df of = false)
    (hconf : dirConflictCond of = false) :
    ∀ e, openAt st h s of df = some (.error e) → mainPhaseErr e = true := by
  intro e hOpen
  cases hcr : of.create with
  | true =>
    cases hstep : getOrCreateEntity st h.dir p true with
    | none => simp [openAt, hparse, hdf, hread, hesc, hconf, hcr, hstep] at hOpen
    | some r =>
      cases r with
      | error e0 =>
        simp [openAt, hparse, hdf, hread, hesc, hconf, hcr, hstep] at hOpen
        subst hOpen
        exact getOrCreate_error_shape st h.dir p true e0 hstep
      | ok t =>
        obtain ⟨ent, n, pd⟩ := t
        cases ent with
        | dir d2 => simp [openAt, hparse, hdf, hread, hesc, hconf, hcr, hstep] at hOpen
        | file f =>
          cases hdir : of.directory with
          | true =>
            simp [openAt, hparse, hdf, hread, hesc, hconf, hcr, hstep, hdir] at hOpen
            subst hOpen
            rfl
          | false =>
            simp [openAt, hparse, hdf, hread, hesc, hconf, hcr, hstep, hdir] at hOpen
        | symlink s2 =>
          simp [openAt, hparse, hdf, hread, hesc, hconf, hcr, hstep] at hOpen
          subst hOpen
          rfl
  | false =>
    cases htr : traceEntity st h.dir p with
    | none => simp [openAt, hparse, hdf, hread, hesc, hconf, hcr, htr] at hOpen
    | some r =>
      cases r with
      | error e0 =>
        simp [openAt, hparse, hdf, hread, hesc, hconf, hcr, htr] at hOpen
        subst hOpen
        exact postTraceErr_imp_main e0 (traceEntity_error_shape st h.dir p e0 htr)
      | ok tr =>
        cases tr with
        | found ent n pd =>
          cases hex : of.exclusive with
          | true =>
            simp [openAt, hparse, hdf, hread, hesc, hconf, hcr, htr, hex] at hOpen
            subst hOpen
            rfl
          | false =>
            cases ent with
            | dir d2 => simp [openAt, hparse, hdf, hread, hesc, hconf, hcr, htr, hex] at hOpen
            | file f =>
              cases hdir : of.directory with
              | true =>
                simp [openAt, hparse, hdf, hread, hesc, hconf, hcr, htr, hex, hdir] at hOpen
                subst hOpen
                rfl
              | false =>
                simp [openAt, hparse, hdf, hread, hesc, hconf, hcr, htr, hex, hdir] at hOpen
            | symlink s2 =>
              simp [openAt, hparse, hdf, hread, hesc, hconf, hcr, htr, hex] at hOpen
              subst hOpen
              rfl
        | notADir pd depth =>
          simp [openAt, hparse, hdf, hread, hesc, hconf, hcr, htr] at hOpen
          subst hOpen
          rfl
        | incomplete pd depth =>
          simp [openAt, hparse, hdf, hread, hesc, hconf, hcr, htr] at hOpen
          subst hOpen
          rfl

/-- C6: `open_at` applies its up-front checks in source order — a path parse
error wins over everything, then `NeedAtLeastReadFlag`, then
`NotAllowedToReadDir`, then `ChildPermissionEscalation` exactly when the
escalation condition holds, then `InvalidOpenFlagsCombination` exactly when
DIRECTORY meets CREATE, EXCLUSIVE or TRUNCATE; when several conditions hold
the earliest check's error is returned. -/
theorem c6_check_order (st : Store) (h : DirHandle) (s : String)
    (of : OpenFlags) (df : DescriptorFlags) (p : Path) :
    (∀ e, Path.tryFromString s = .error e → openAt st h s of df = some (.error e)) ∧
    (Path.tryFromString s = .ok p → df.read = false →
      openAt st h s of df = some (.error (.needAtLeastReadFlag p df))) ∧
    (Path.tryFromString s = .ok p → df.read = true → h.flags.read = false →
      openAt st h s of df = some (.error .notAllowedToReadDir)) ∧
    (Path.tryFromString s = .ok p → df.read = true → h.flags.read = true →
      (openAt st h s of df = some (.error (.childPermissionEscalation p h.flags df of)) ↔
        escCond h.flags df of = true)) ∧
    (Path.tryFromString s = .ok p → df.read = true → h.flags.read = true →
      escCond h.flags df of = false →
      (openAt st h s of df = some (.error (.invalidOpenFlagsCombination p of)) ↔
        dirConflictCond of = true)) := by
  refine ⟨?_, ?_, ?_, ?_, ?_⟩
  · intro e he
    simp [openAt, he]
  · intro hp hdf
    simp [openAt, hp, hdf]
  · intro hp hdf hr
    simp [openAt, hp, hdf, hr]
  · intro hp hdf hr
    constructor
    · intro hres
      cases he2 : escCond h.flags df of with
      | true => rfl
      | false =>
        exfalso
        cases hcf : dirConflictCond of with
        | true =>
          have hcomb : openAt st h s of df =
              some (.error (.invalidOpenFlagsCombination p of)) := by
            simp [openAt, hp, hdf, hr, he2, hcf]
          rw [hcomb] at hres
          simp at hres
        | false =>
          have hme := openAt_post_check_errors st h s of df p hp hdf hr he2 hcf _ hres
          simp [mainPhaseErr] at hme
    · intro hesc
      simp [openAt, hp, hdf, hr, hesc]
  · intro hp hdf hr hesc
    constructor
    · intro hres
      cases hcf : dirConflictCond of with
      | true => rfl
      | false =>
        exfalso
        have hme := openAt_post_check_errors st h s of df p hp hdf hr hesc hcf _ hres
        simp [mainPhaseErr] at hme
    · intro hcf
      simp [openAt, hp, hdf, hr, hesc, hcf]

/-- Witness for C6: DIRECTORY | CREATE on a handle lacking MUTATE_DIR yields
`ChildPermissionEscalation`, not `InvalidOpenFlagsCombination`. -/
theorem c6_witness :
    openAt [] ⟨Dir.new, none, ⟨true, false, false⟩, []⟩ "/public/file"
      ⟨true, true, false, false⟩ exReadWrite =
      some (.error (.childPermissionEscalation ⟨[.named "public", .named "file"]⟩
        ⟨true, false, false⟩ exReadWrite ⟨true, true, false, false⟩)) :=
  ((c6_check_order [] ⟨Dir.new, none, ⟨true, false, false⟩, []⟩ "/public/file"
      ⟨true, true, false, false⟩ exReadWrite
      ⟨[.named "public", .named "file"]⟩).2.2.2.1
    (by decide) (by decide) (by decide)).mpr (by decide)

/-- Rendering a well-formed segment with `to_string` and parsing it back with
`TryFrom<String>` recovers the segment. -/
theorem tryFromString_asStr (k : PathSegment) (hw : segWellFormed k = true) :
    PathSegment.tryFromString k.asStr = .ok k := by
  cases k with
  | currentDir => decide
  | parentDir => decide
  | named s =>
    have hw2 : reValidPathSegment s = true := hw
    have h1 : ¬s = "." := by
      intro hse; rw [hse] at hw2; exact absurd hw2 (by decide)
    have h2 : ¬s = ".." := by
      intro hse; rw [hse] at hw2; exact absurd hw2 (by decide)
    simp only [PathSegment.tryFromString, PathSegment.validate, PathSegment.asStr,
      h1, h2, hw2, Bind.bind, Except.bind, if_false, if_true, or_self, ite_false, ite_true,
      or_false, false_or]
    rfl

/-- On well-formed segments, equal string renderings imply case-insensitive
segment equality (renderings of distinct kinds cannot collide because a
named segment never spells `.` or `..`). -/
theorem segBeq_of_asStr_eq (a b : PathSegment)
    (ha : segWellFormed a = true) (hb : segWellFormed b = true)
    (h : a.asStr = b.asStr) : segBeq a b = true := by
  cases a with
  | currentDir =>
    cases b with
    | currentDir => rfl
    | parentDir => exact absurd h (by decide)
    | named t =>
      exfalso
      have : t = "." := by simpa [PathSegment.asStr] using h.symm
      rw [this] at hb
      exact absurd hb (by decide)
  | parentDir =>
    cases b with
    | currentDir => exact absurd h (by decide)
    | parentDir => rfl
    | named t =>
      exfalso
      have : t = ".." := by simpa [PathSegment.asStr] using h.symm
      rw [this] at hb
      exact absurd hb (by decide)
  | named s =>
    cases b with
    | currentDir =>
      exfalso
      have : s = "." := by simpa [PathSegment.asStr] using h
      rw [this] at ha
      exact absurd ha (by decide)
    | parentDir =>
      exfalso
      have : s = ".." := by simpa [PathSegment.asStr] using h
      rw [this] at ha
      exact absurd ha (by decide)
    | named t =>
      have : s = t := by simpa [PathSegment.asStr] using h
      subst this
      simp [segBeq, PathSegment.canon]

/-- Case-insensitive segment equality is symmetric as a boolean. -/
theorem segBeq_comm (a b : PathSegment) : segBeq a b = segBeq b a := by
  rw [Bool.eq_iff_iff]
  constructor
  · intro h; exact segBeq_of_canon_eq (segBeq_iff_canon.mp h).symm
  · intro h; exact segBeq_of_canon_eq (segBeq_iff_canon.mp h).symm

/-- Character comparison decides equality. -/
theorem charCmp_eq_imp (a b : Char) (h : charCmp a b = .eq) : a = b := by
  unfold charCmp at h
  by_cases h1 : a.toNat < b.toNat
  · rw [if_pos h1] at h; cases h
  · rw [if_neg h1] at h
    by_cases h2 : b.toNat < a.toNat
    · rw [if_pos h2] at h; cases h
    · have hn : a.toNat = b.toNat := by omega
      exact Char.ext (UInt32.ext hn)

/-- Character-list comparison decides equality. -/
theorem charListCmp_eq_imp : ∀ l1 l2 : List Char, charListCmp l1 l2 = .eq → l1 = l2 := by
  intro l1
  induction l1 with
  | nil =>
    intro l2 h
    cases l2 with
    | nil => rfl
    | cons c rest => simp [charListCmp] at h
  | cons c rest ih =>
    intro l2 h
    cases l2 with
    | nil => simp [charListCmp] at h
    | cons c2 rest2 =>
      simp only [charListCmp] at h
      cases hc : charCmp c c2 with
      | eq => rw [hc] at h; rw [charCmp_eq_imp c c2 hc, ih rest2 h]
      | lt => rw [hc] at h; cases h
      | gt => rw [hc] at h; cases h

/-- String comparison decides equality (the `BTreeMap` key order is total and
its `.eq` case pins down the key). -/
theorem strCmp_eq_imp (a b : String) (h : strCmp a b = .eq) : a = b := by
  cases a with
  | mk l1 =>
    cases b with
    | mk l2 =>
      have := charListCmp_eq_imp l1 l2 h
      rw [this]

/-- Parsing the rendered keys of a mapped entries list recovers the original
pairs. -/
theorem tryFromEntries_map :
    ∀ l : List (PathSegment × Cid), (∀ q ∈ l, segWellFormed q.1 = true) →
      tryFromEntries (l.map (fun q => (q.1.asStr, q.2))) = .ok l := by
  intro l
  induction l with
  | nil => intro _; rfl
  | cons q rest ih =>
    intro hw
    simp only [List.map_cons, tryFromEntries, Bind.bind, Except.bind,
      tryFromString_asStr q.1 (hw q (by simp)),
      ih (fun r hr => hw r (by simp [hr]))]
    rfl

/-- Mapping the string rendering over a segment-level `BTreeMap` insert gives
the string-level insert. -/
theorem btreeInsertSeg_map :
    ∀ (acc : List (PathSegment × Cid)) (k : PathSegment) (c : Cid),
      (btreeInsertSeg acc k c).map (fun q => (q.1.asStr, q.2)) =
        btreeInsert (acc.map (fun q => (q.1.asStr, q.2))) k.asStr c := by
  intro acc
  induction acc with
  | nil => intro k c; rfl
  | cons p rest ih =>
    intro k c
    obtain ⟨k2, v2⟩ := p
    cases hc : strCmp k.asStr k2.asStr <;>
      simp [btreeInsertSeg, btreeInsert, hc, ih]

/-- Mapping the string rendering over the segment-level `BTreeMap` fold gives
the string-level fold the serializer performs. -/
theorem foldl_btreeInsertSeg_map :
    ∀ (l acc : List (PathSegment × Cid)),
      (l.foldl (fun a q => btreeInsertSeg a q.1 q.2) acc).map (fun q => (q.1.asStr, q.2)) =
        l.foldl (fun a q => btreeInsert a q.1.asStr q.2) (acc.map (fun q => (q.1.asStr, q.2))) := by
  intro l
  induction l with
  | nil => intro acc; rfl
  | cons q rest ih =>
    intro acc
    simp only [List.foldl_cons, ih, btreeInsertSeg_map]

/-- Inserting a fresh key into a segment-level `BTreeMap` permutes the
appended list. -/
theorem btreeInsertSeg_perm :
    ∀ (acc : List (PathSegment × Cid)) (k : PathSegment) (c : Cid),
      segWellFormed k = true → (∀ q ∈ acc, segWellFormed q.1 = true) →
      (∀ q ∈ acc, segBeq q.1 k = false) →
      List.Perm (btreeInsertSeg acc k c) (acc ++ [(k, c)]) := by
  intro acc
  induction acc with
  | nil => intro k c _ _ _; exact List.Perm.refl _
  | cons p rest ih =>
    intro k c hwk hwacc hfresh
    obtain ⟨k2, v2⟩ := p
    cases hc : strCmp k.asStr k2.asStr with
    | lt =>
      simp only [btreeInsertSeg, hc]
      exact (List.perm_append_singleton (k, c) ((k2, v2) :: rest)).symm
    | eq =>
      exfalso
      have hstr : k.asStr = k2.asStr := strCmp_eq_imp _ _ hc
      have : segBeq k2 k = true :=
        segBeq_of_asStr_eq k2 k (hwacc (k2, v2) (by simp)) hwk hstr.symm
      rw [hfresh (k2, v2) (by simp)] at this
      cases this
    | gt =>
      simp only [btreeInsertSeg, hc]
      have hperm := ih k c hwk (fun q hq => hwacc q (by simp [hq]))
        (fun q hq => hfresh q (by simp [hq]))
      exact List.Perm.cons (k2, v2) hperm

/-- The segment-level `BTreeMap` fold permutes its input when the keys are
pairwise distinct modulo case folding. -/
theorem foldl_btreeInsertSeg_perm :
    ∀ (l acc : List (PathSegment × Cid)),
      (∀ q ∈ acc ++ l, segWellFormed q.1 = true) →
      List.Pairwise (fun q r => segBeq q.1 r.1 = false) (acc ++ l) →
      List.Perm (l.foldl (fun a q => btreeInsertSeg a q.1 q.2) acc) (acc ++ l) := by
  intro l
  induction l with
  | nil => intro acc _ _; simp
  | cons q rest ih =>
    intro acc hw hpw
    have hsymm : ∀ {x y : PathSegment × Cid},
        segBeq x.1 y.1 = false → segBeq y.1 x.1 = false := by
      intro x y hxy
      rw [segBeq_comm]
      exact hxy
    have hfresh : ∀ r ∈ acc, segBeq r.1 q.1 = false := by
      intro r hr
      have := (List.pairwise_append.mp hpw).2.2 r hr q (by simp)
      exact this
    have hperm1 : List.Perm (btreeInsertSeg acc q.1 q.2) (acc ++ [q]) :=
      btreeInsertSeg_perm acc q.1 q.2 (hw q (by simp))
        (fun r hr => hw r (by simp [hr])) hfresh
    have hperm2 : List.Perm (btreeInsertSeg acc q.1 q.2 ++ rest) (acc ++ q :: rest) := by
      have := hperm1.append_right rest
      calc List.Perm (btreeInsertSeg acc q.1 q.2 ++ rest) ((acc ++ [q]) ++ rest) := this
        _ = acc ++ q :: rest := by simp
    have hw2 : ∀ r ∈ btreeInsertSeg acc q.1 q.2 ++ rest, segWellFormed r.1 = true := by
      intro r hr
      exact hw r (hperm2.mem_iff.mp hr)
    have hpw2 : List.Pairwise (fun x y => segBeq x.1 y.1 = false)
        (btreeInsertSeg acc q.1 q.2 ++ rest) :=
      (hperm2.pairwise_iff fun hxy => hsymm hxy).mpr hpw
    have := ih (btreeInsertSeg acc q.1 q.2) hw2 hpw2
    exact this.trans hperm2

/-- Inserting a key absent from the map appends it. -/
theorem entriesInsert_append_of_fresh :
    ∀ (acc : List (PathSegment × Cid)) (k : PathSegment) (c : Cid),
      (∀ r ∈ acc, segBeq r.1 k = false) →
      entriesInsert acc k c = acc ++ [(k, c)] := by
  intro acc
  induction acc with
  | nil => intro k c _; rfl
  | cons p rest ih =>
    intro k c hfresh
    obtain ⟨k2, v2⟩ := p
    simp only [entriesInsert]
    rw [if_neg (by simp [hfresh (k2, v2) (by simp)])]
    rw [ih k c (fun r hr => hfresh r (by simp [hr]))]
    simp

/-- Collecting pairwise-distinct pairs into the `HashMap` in iteration order
reproduces the list. -/
theorem foldl_entriesInsert_eq :
    ∀ (l acc : List (PathSegment × Cid)),
      (∀ q ∈ l, ∀ r ∈ acc, segBeq r.1 q.1 = false) →
      List.Pairwise (fun q r => segBeq q.1 r.1 = false) l →
      l.foldl (fun a q => entriesInsert a q.1 q.2) acc = acc ++ l := by
  intro l
  induction l with
  | nil => intro acc _ _; simp
  | cons q rest ih =>
    intro acc hfresh hpw
    simp only [List.foldl_cons]
    rw [entriesInsert_append_of_fresh acc q.1 q.2 (hfresh q (by simp))]
    rw [ih (acc ++ [q]) ?fr (List.pairwise_cons.mp hpw).2]
    · simp
    case fr =>
      intro q2 hq2 r hr
      rcases List.mem_append.mp hr with h1 | h2
      · exact hfresh q2 (by simp [hq2]) r h1
      · simp only [List.mem_singleton] at h2
        subst h2
        exact (List.pairwise_cons.mp hpw).1 q2 hq2

/-- In a map with pairwise-distinct keys, every stored pair is retrieved by
its own key. -/
theorem entriesGet_of_mem_distinct :
    ∀ (l : List (PathSegment × Cid)) (k : PathSegment) (c : Cid),
      List.Pairwise (fun q r => segBeq q.1 r.1 = false) l → (k, c) ∈ l →
      entriesGet l k = some c := by
  intro l
  induction l with
  | nil => intro k c _ hmem; cases hmem
  | cons p rest ih =>
    intro k c hpw hmem
    obtain ⟨k2, v2⟩ := p
    rcases List.mem_cons.mp hmem with h1 | h2
    · injection h1 with hk2 hv2
      simp only [entriesGet]
      rw [← hk2, ← hv2, if_pos (segBeq_of_canon_eq rfl)]
    · by_cases hk2 : segBeq k2 k = true
      · exfalso
        have := (List.pairwise_cons.mp hpw).1 (k, c) h2
        rw [this] at hk2
        cases hk2
      · simp only [entriesGet]
        rw [if_neg hk2]
        exact ih k c (List.pairwise_cons.mp hpw).2 h2

/-- The boolean distinct-keys invariant coincides with pairwise
distinctness. -/
theorem keysDistinct_iff_pairwise :
    ∀ l : List (PathSegment × Cid),
      keysDistinct l = true ↔
        List.Pairwise (fun q r => segBeq q.1 r.1 = false) l := by
  intro l
  induction l with
  | nil => simp [keysDistinct]
  | cons p rest ih =>
    obtain ⟨k, v⟩ := p
    simp [keysDistinct, List.all_eq_true, List.pairwise_cons, ih, Bool.not_eq_true']

/-- C8: a directory whose entries map satisfies its construction invariants
(valid keys, no two keys sharing a case-folded form) round-trips through the
store — `store` then `load` at the returned CID yields a directory equal to
the original under the directory `PartialEq` (equal metadata, equal entry
count, every entry found under its case-insensitive key with an equal
CID). -/
theorem c8_store_load_roundtrip (st : NodeStore) (d : Dir)
    (hwf : entriesWellFormed d.entries = true) :
    ∃ d2, Dir.loadNode (Dir.storeNode st d).2 (Dir.storeNode st d).1 = some (.ok d2) ∧
      dirBeq d d2 = true := by
  have hw1 : ∀ q ∈ d.entries, segWellFormed q.1 = true := by
    have := (Bool.and_eq_true _ _).mp hwf
    exact fun q hq => List.all_eq_true.mp this.1 q hq
  have hpw : List.Pairwise (fun q r => segBeq q.1 r.1 = false) d.entries :=
    (keysDistinct_iff_pairwise d.entries).mp ((Bool.and_eq_true _ _).mp hwf).2
  have hsymm : ∀ {x y : PathSegment × Cid},
      segBeq x.1 y.1 = false → segBeq y.1 x.1 = false := by
    intro x y hxy
    rw [segBeq_comm]
    exact hxy
  have hpermS : List.Perm
      (d.entries.foldl (fun a q => btreeInsertSeg a q.1 q.2) []) d.entries := by
    have := foldl_btreeInsertSeg_perm d.entries [] (by simpa using hw1) (by simpa using hpw)
    simpa using this
  have hwS : ∀ q ∈ d.entries.foldl (fun a q => btreeInsertSeg a q.1 q.2) [],
      segWellFormed q.1 = true :=
    fun q hq => hw1 q (hpermS.mem_iff.mp hq)
  have hpwS : List.Pairwise (fun q r => segBeq q.1 r.1 = false)
      (d.entries.foldl (fun a q => btreeInsertSeg a q.1 q.2) []) :=
    (hpermS.pairwise_iff fun hxy => hsymm hxy).mpr hpw
  have hmapS : (serializeDir d).entries =
      (d.entries.foldl (fun a q => btreeInsertSeg a q.1 q.2) []).map
        (fun q => (q.1.asStr, q.2)) := by
    unfold serializeDir
    rw [foldl_btreeInsertSeg_map]
    rfl
  have htfe : tryFromEntries (serializeDir d).entries =
      .ok (d.entries.foldl (fun a q => btreeInsertSeg a q.1 q.2) []) := by
    rw [hmapS]
    exact tryFromEntries_map _ hwS
  have hfold : (d.entries.foldl (fun a q => btreeInsertSeg a q.1 q.2) []).foldl
      (fun a q => entriesInsert a q.1 q.2) [] =
      d.entries.foldl (fun a q => btreeInsertSeg a q.1 q.2) [] := by
    have := foldl_entriesInsert_eq
      (d.entries.foldl (fun a q => btreeInsertSeg a q.1 q.2) []) []
      (by intro q _ r hr; cases hr) hpwS
    simpa using this
  refine ⟨⟨d.metadata, d.entries.foldl (fun a q => btreeInsertSeg a q.1 q.2) []⟩, ?_, ?_⟩
  · unfold Dir.loadNode Dir.storeNode putNode getNode
    rw [List.get?_concat_length]
    simp only [Option.map_some']
    unfold tryFromSerializable
    rw [show (serializeDir d).metadata = d.metadata from rfl]
    simp only [Bind.bind, Except.bind, htfe, hfold, pure, Except.pure]
  · unfold dirBeq
    simp only [Bool.and_eq_true, List.all_eq_true]
    refine ⟨⟨by simp, ?_⟩, ?_⟩
    · simp [hpermS.length_eq]
    · intro q hq
      have hmem : (q.1, q.2) ∈ d.entries.foldl (fun a q => btreeInsertSeg a q.1 q.2) [] :=
        hpermS.mem_iff.mpr hq
      rw [entriesGet_of_mem_distinct _ q.1 q.2 hpwS hmem]
      simp

/-- Witness for C8 at a concrete three-entry directory. -/
theorem c8_witness :
    entriesWellFormed exDirForSer.entries = true ∧
    ∃ d2, Dir.loadNode (Dir.storeNode [] exDirForSer).2 (Dir.storeNode [] exDirForSer).1 =
        some (.ok d2) ∧ dirBeq exDirForSer d2 = true :=
  ⟨by decide, c8_store_load_roundtrip [] exDirForSer (by decide)⟩

end ZeroFS
